import Mathlib

/-!
Shallow embedding of the BlackBookFinance core: the multi-hop currency
conversion engine (`commodities/models.py`, `Commodity.convert_to`) and the
double-entry ledger balancing logic (`ledger/models.py` `Posting`,
`ledger/signals.py` `update_balancing_amount`).

Modelling conventions:
* a `Commodity` row is identified by its primary key, a `Nat`;
* Python `Decimal` values are modelled as exact rationals `ℚ` (the claims
  under study are about graph construction, lookup and summation, not about
  `Decimal` context rounding);
* dates are modelled as `Nat` (only their ordering matters);
* a Django queryset is modelled as a `List` of rows; `.filter` is `List.filter`,
  `.get` is a match on the filtered list (`[]` raises `DoesNotExist`, two or
  more rows raise `MultipleObjectsReturned`, which `update_balancing_amount`
  does not catch and is therefore modelled as `Option.none`);
* the BFS loop of `convert_to` is written with explicit fuel; `suffFuel` is an
  upper bound on the number of loop iterations, proved sufficient below
  (`bfsAux_isSome_of_lt_fuel`), so the `Option.getD` in `convertRate` never hits
  its default because of fuel exhaustion.
-/

/-- A row of the `Price` table: commodity `commodity` priced in unit `unit`
on `date`, with value `price`.  Mirrors `commodities/models.py`, class
`Price`. -/
structure PriceRow where
  commodity : Nat
  unit : Nat
  date : Nat
  price : ℚ
deriving DecidableEq, Repr

/-- The `(commodity, unit)` pairs occurring in the price table, one entry per
distinct pair, in first-occurrence order.  Models the grouping performed by
`Price.objects.values("commodity", "unit")`. -/
def pricePairs (prices : List PriceRow) : List (Nat × Nat) :=
  (prices.map (fun p => (p.commodity, p.unit))).dedup

/-- The maximal date among the price rows of one `(commodity, unit)` group.
Models `annotate(latest_date=Max("date"))` for that group. -/
def latestDateOf (prices : List PriceRow) (c u : Nat) : Nat :=
  ((prices.filter (fun p => p.commodity == c && p.unit == u)).map
    (fun p => p.date)).foldl Nat.max 0

/-- Step 1 of `Commodity.convert_to`: the `latest_dates` queryset, one
`(commodity, unit, latest_date)` triple per pair. -/
def latest_dates (prices : List PriceRow) : List (Nat × Nat × Nat) :=
  (pricePairs prices).map (fun cu => (cu.1, cu.2, latestDateOf prices cu.1 cu.2))

/-- Insert a price row into a list sorted by date descending, keeping the
descending order.  Used to model the default queryset ordering
`Meta.ordering = ["-date"]` of `Price` (the relative order of rows with equal
dates is unspecified by the ORM; this model keeps one deterministic choice). -/
def insertDateDesc (p : PriceRow) : List PriceRow → List PriceRow
  | [] => [p]
  | q :: rest => if q.date < p.date then p :: q :: rest else q :: insertDateDesc p rest

/-- Sort price rows by date descending, modelling `ordering = ["-date"]`. -/
def sortDateDesc : List PriceRow → List PriceRow
  | [] => []
  | p :: rest => insertDateDesc p (sortDateDesc rest)

/-- Step 2 of `Commodity.convert_to`: the `latest_prices` queryset.  The
source filters with three independent `__in` clauses —
`commodity__in=[...] , unit__in=[...], date__in=[...]` over the columns of
`latest_dates` — not with a tuple membership test, and the result carries the
model's default ordering by date descending. -/
def latest_prices (prices : List PriceRow) : List PriceRow :=
  let lds := latest_dates prices
  let cs := lds.map (fun e => e.1)
  let us := lds.map (fun e => e.2.1)
  let ds := lds.map (fun e => e.2.2)
  sortDateDesc (prices.filter (fun p =>
    decide (p.commodity ∈ cs) && decide (p.unit ∈ us) && decide (p.date ∈ ds)))

/-- The graph/lookup pair built by the `for price in latest_prices` loop of
`Commodity.convert_to`.  The first component is the edge list of the
`defaultdict(list)` graph (an occurrence of `(a, b)` for every
`graph[a].append(b)`, in program order, so `graphNeighbors` reproduces each
adjacency list including duplicates).  The second component is `prices_lookup`;
entries are prepended so that `priceOf` (first match) reproduces the Python
dict semantics where a later assignment to the same key overwrites the
earlier one. -/
def buildGraph (rows : List PriceRow) : List (Nat × Nat) × List ((Nat × Nat) × ℚ) :=
  rows.foldl
    (fun gp p =>
      let g := gp.1 ++ [(p.commodity, p.unit)]
      let pl := ((p.commodity, p.unit), p.price) :: gp.2
      if p.price ≠ 0 then
        (g ++ [(p.unit, p.commodity)], ((p.unit, p.commodity), (1 : ℚ) / p.price) :: pl)
      else
        (g, pl))
    ([], [])

/-- The adjacency list `graph[a]` of the built graph: the targets of the
edge occurrences with source `a`, in append order. -/
def graphNeighbors (g : List (Nat × Nat)) (a : Nat) : List Nat :=
  (g.filter (fun e => e.1 == a)).map (fun e => e.2)

/-- The `prices_lookup[(a, b)]` access (the loop only performs it on keys the
graph-building loop inserted, so the default is never observable there). -/
def priceOf (pl : List ((Nat × Nat) × ℚ)) (a b : Nat) : ℚ :=
  ((pl.find? (fun e => e.1 == (a, b))).map (fun e => e.2)).getD 0

/-- One queue entry of the BFS: `(current, path, factor)`. -/
abbrev BfsEntry := Nat × List Nat × ℚ

/-- Step 3 of `Commodity.convert_to`: the BFS loop, with explicit fuel.
`none` means the fuel ran out (which `bfsAux_isSome_of_lt_fuel` below rules out
for the fuel used by `convertRate`), `some f` is a `return factor`, and an
emptied queue gives the trailing `return Decimal(1.0)`. -/
def bfsAux (g : List (Nat × Nat)) (pl : List ((Nat × Nat) × ℚ)) (tgt : Nat) :
    Nat → List BfsEntry → List Nat → Option ℚ
  | 0, _, _ => none
  | _ + 1, [], _ => some 1
  | fuel + 1, (c, path, f) :: rest, visited =>
    if c = tgt then some f
    else
      let visited' := visited.insert c
      let news := (graphNeighbors g c).filterMap (fun n =>
        if n ∈ visited' then none else some (n, path ++ [n], f * priceOf pl c n))
      bfsAux g pl tgt fuel (rest ++ news) visited'

/-- The node universe of a BFS run: the start node together with every
endpoint of an edge; every node the BFS can ever touch lies in it. -/
def bfsNodes (g : List (Nat × Nat)) (start : Nat) : List Nat :=
  start :: g.flatMap (fun e => [e.1, e.2])

/-- A fuel bound sufficient for the BFS to run to completion (proved in
`bfsAux_ne_none_of_fuel`). -/
def suffFuel (g : List (Nat × Nat)) (start : Nat) : Nat :=
  (g.length + 2) ^ (bfsNodes g start).dedup.length + 1

/-- The core of `Commodity.convert_to` once the target has been resolved to a
commodity row: build the snapshot graph from the price table and run the BFS
from `self` towards `commodity`; an exhausted queue yields the factor `1`. -/
def convertRate (prices : List PriceRow) (self commodity : Nat) : ℚ :=
  let gp := buildGraph (latest_prices prices)
  (bfsAux gp.1 gp.2 commodity (suffFuel gp.1 self) [(self, [self], 1)] []).getD 1

/-- The `str | Commodity` argument of `convert_to`. -/
inductive CommodityRef where
  | obj (c : Nat)
  | code (s : String)
deriving DecidableEq, Repr

/-- The commodity table, as `(id, code)` rows; `code` is unique. -/
abbrev CommodityTable := List (Nat × String)

/-- Model of `Commodity.objects.get(code=s)` under the unique-code constraint:
the row with that code, if any. -/
def resolveCode (table : CommodityTable) (s : String) : Option Nat :=
  ((table.find? (fun e => e.2 == s)).map (fun e => e.1))

/-- Full `Commodity.convert_to`: resolve a string target through the commodity
table (returning factor `1` when `Commodity.DoesNotExist` is caught), then
run the graph search. -/
def convert_to (table : CommodityTable) (prices : List PriceRow) (self : Nat) :
    CommodityRef → ℚ
  | .obj c => convertRate prices self c
  | .code s =>
    match resolveCode table s with
    | none => 1
    | some c => convertRate prices self c

/-- Weight of one BFS queue entry, exponentially decreasing in the length of
the recorded path.  `E` is the number of edge occurrences, `N` the number of
distinct nodes. -/
def entryWeight (E N : Nat) (e : BfsEntry) : Nat := (E + 2) ^ (N + 1 - e.2.1.length)

/-- Total weight of the BFS queue: the termination measure of the loop. -/
def queueWeight (E N : Nat) (q : List BfsEntry) : Nat := (q.map (entryWeight E N)).sum

/-- The invariant the BFS maintains for every queue entry: its recorded path
has no duplicates, visits only already-visited nodes apart from the entry's
own node, and stays inside the node universe `uni`. -/
def GoodEntry (uni visited : List Nat) (e : BfsEntry) : Prop :=
  e.2.1.Nodup ∧ (∀ x ∈ e.2.1, x = e.1 ∨ x ∈ visited) ∧ ∀ x ∈ e.2.1, x ∈ uni

/-- One step along an edge occurrence of the built graph. -/
def EdgeStep (g : List (Nat × Nat)) (a b : Nat) : Prop := (a, b) ∈ g

/-- Reachability along edges of the built graph. -/
def ReachableIn (g : List (Nat × Nat)) (a b : Nat) : Prop :=
  Relation.ReflTransGen (EdgeStep g) a b

/-- A row of the `Posting` table (`ledger/models.py`, the active `Posting`
class: fields `transaction`, `account`, `amount`, `commodity`,
`is_balance_posting`; the model has no foreign-amount fields). -/
structure Posting where
  id : Nat
  transaction : Nat
  account : Nat
  amount : ℚ
  commodity : Nat
  is_balance_posting : Bool
deriving DecidableEq, Repr

/-- An `Account` row, reduced to the fields the claims mention. -/
structure Account where
  id : Nat
  default_currency : Nat
deriving DecidableEq, Repr

/-- Model of `Posting.save` of the active `Posting` class, before the row is written:
a zero amount marks the posting as the balance posting; nothing else is
touched. -/
def Posting.save (p : Posting) : Posting :=
  if p.amount = 0 then { p with is_balance_posting := true } else p

/-- Model of `Posting.calculate_balance_amount`: iterate over the transaction's
postings excluding those flagged `is_balance_posting`, subtracting each
amount, converted into `self`'s commodity when the commodities differ.
`db` is the whole `Posting` table. -/
def calculate_balance_amount (prices : List PriceRow) (db : List Posting)
    (self : Posting) : ℚ :=
  let postings := (db.filter (fun q => q.transaction == self.transaction)).filter
    (fun q => !q.is_balance_posting)
  postings.foldl
    (fun total q =>
      if q.commodity = self.commodity then total - q.amount
      else total - q.amount * convertRate prices q.commodity self.commodity)
    0

/-- The `post_save` receiver `update_balancing_amount` of `ledger/signals.py`.
`.get(is_balance_posting=True)` on the transaction's postings raises
`DoesNotExist` on zero rows (caught: the table is returned unchanged) and
`MultipleObjectsReturned` on two or more (not caught: modelled as `none`).
When the stored amount differs from the freshly computed balance amount the
row is updated in place by id. -/
def update_balancing_amount (prices : List PriceRow) (db : List Posting)
    (inst : Posting) : Option (List Posting) :=
  match db.filter (fun q => q.transaction == inst.transaction && q.is_balance_posting) with
  | [] => some db
  | [bp] =>
    let balance_amount := calculate_balance_amount prices db inst
    if bp.amount ≠ balance_amount then
      some (db.map (fun q => if q.id = bp.id then { q with amount := balance_amount } else q))
    else
      some db
  | _ :: _ :: _ => none

/-- Write a posting row into the table: update in place when a row with the
same id exists, append otherwise. -/
def dbWrite (db : List Posting) (p : Posting) : List Posting :=
  if db.any (fun q => q.id == p.id) then
    db.map (fun q => if q.id == p.id then p else q)
  else
    db ++ [p]

/-- The full observable effect of saving a posting: the `Posting.save`
mutation, the row write, then the `post_save` signal
`update_balancing_amount` fired with the saved instance. -/
def savePosting (prices : List PriceRow) (db : List Posting) (p : Posting) :
    Option (List Posting) :=
  let p' := Posting.save p
  let db' := dbWrite db p'
  update_balancing_amount prices db' p'

/-- Folding subtraction of `f` over a list starting at `init` subtracts the
sum of the images. -/
theorem foldl_sub_eq_sub_sum {α : Type} (f : α → ℚ) :
    ∀ (l : List α) (init : ℚ), l.foldl (fun t a => t - f a) init = init - (l.map f).sum
  | [], init => by simp
  | a :: l, init => by
    rw [List.foldl_cons, foldl_sub_eq_sub_sum f l (init - f a), List.map_cons,
      List.sum_cons, sub_sub]

/-- C3: for every posting, `calculate_balance_amount` equals the negated sum,
over the postings of its transaction not flagged as balance postings, of the
amounts converted into the posting's commodity (taken directly when the
commodities agree). -/
theorem calculate_balance_amount_eq_neg_sum (prices : List PriceRow)
    (db : List Posting) (self : Posting) :
    calculate_balance_amount prices db self =
      -(((db.filter (fun q => q.transaction == self.transaction && !q.is_balance_posting)).map
          (fun q =>
            if q.commodity = self.commodity then q.amount
            else q.amount * convertRate prices q.commodity self.commodity)).sum) := by
  unfold calculate_balance_amount
  rw [List.filter_filter]
  have hbody :
      (fun (total : ℚ) (q : Posting) =>
        if q.commodity = self.commodity then total - q.amount
        else total - q.amount * convertRate prices q.commodity self.commodity) =
      (fun (total : ℚ) (q : Posting) =>
        total - (if q.commodity = self.commodity then q.amount
          else q.amount * convertRate prices q.commodity self.commodity)) := by
    funext t q
    by_cases h : q.commodity = self.commodity <;> simp [h]
  rw [hbody, foldl_sub_eq_sub_sum, zero_sub]
  have hfilter :
      db.filter (fun a => !a.is_balance_posting && (a.transaction == self.transaction)) =
        db.filter (fun q => q.transaction == self.transaction && !q.is_balance_posting) := by
    apply List.filter_congr
    intro q _
    exact Bool.and_comm _ _
  rw [hfilter]

/-- C7: self-conversion returns the factor 1 for any commodity and any state
of the price data: the BFS start node is the target. -/
theorem convert_to_self_eq_one (table : CommodityTable) (prices : List PriceRow)
    (c : Nat) : convert_to table prices c (.obj c) = 1 := by
  simp [convert_to, convertRate, suffFuel, bfsAux]

/-- C10: `Posting.save` leaves the balance flag true exactly when the amount
is zero at save time or the flag was already true; it never resets it. -/
theorem posting_save_flag_eq (p : Posting) :
    (Posting.save p).is_balance_posting = (decide (p.amount = 0) || p.is_balance_posting) := by
  unfold Posting.save
  by_cases h : p.amount = 0 <;> simp [h]

/-- C8 (counterexample): saving a posting whose commodity (1) differs from its
account's default currency (0) does not swap the commodity to the account
default: the saved commodity is still 1. -/
theorem posting_save_no_swap_cex :
    (Posting.save ⟨1, 0, 0, 100, 1, false⟩).commodity = 1 ∧
      (Account.mk 0 0).default_currency = 0 ∧ (1 : Nat) ≠ 0 := by
  refine ⟨?_, rfl, by decide⟩
  norm_num [Posting.save]

/-- C8 (amended): `Posting.save` performs no foreign-currency normalization:
amount, commodity and every other field except the balance flag are written
unchanged (the active model has no foreign_amount/foreign_commodity fields). -/
theorem posting_save_preserves_fields (p : Posting) :
    (Posting.save p).amount = p.amount ∧ (Posting.save p).commodity = p.commodity ∧
      (Posting.save p).transaction = p.transaction ∧
      (Posting.save p).account = p.account ∧ (Posting.save p).id = p.id := by
  unfold Posting.save
  by_cases h : p.amount = 0 <;> simp [h]

/-- C9: when the saved posting's transaction has no posting flagged as the
balance posting, the post-save recompute leaves the posting table exactly as
it was (and raises nothing). -/
theorem update_balancing_amount_no_flag (prices : List PriceRow)
    (db : List Posting) (inst : Posting)
    (h : db.filter (fun q => q.transaction == inst.transaction && q.is_balance_posting) = []) :
    update_balancing_amount prices db inst = some db := by
  unfold update_balancing_amount
  rw [h]

/-- Witness for `update_balancing_amount_no_flag` at a concrete table. -/
theorem update_balancing_amount_no_flag_witness :
    update_balancing_amount [] [⟨1, 0, 0, 5, 0, false⟩] ⟨1, 0, 0, 5, 0, false⟩ =
      some [⟨1, 0, 0, 5, 0, false⟩] :=
  update_balancing_amount_no_flag [] _ _ (by decide)

/-- C1: with price rows (commodity 0 in unit 1: 5 on date 2 and 7 on date 1)
and (commodity 2 in unit 3: 3 on date 1), the conversion factor 0 → 1 comes
out as 7 — the older date-1 row for the pair (0, 1) slips through the three
independent `__in` filters (its date matches the latest date of the pair
(2, 3)) and overwrites the latest price 5 in `prices_lookup`. -/
theorem convert_to_uses_stale_price :
    convert_to [] [⟨0, 1, 2, 5⟩, ⟨0, 1, 1, 7⟩, ⟨2, 3, 1, 3⟩] 0 (.obj 1) = 7 ∧
      latestDateOf [⟨0, 1, 2, 5⟩, ⟨0, 1, 1, 7⟩, ⟨2, 3, 1, 3⟩] 0 1 = 2 := by
  constructor
  · norm_num [convert_to, convertRate, buildGraph, latest_prices, latest_dates, pricePairs,
      latestDateOf, sortDateDesc, insertDateDesc, graphNeighbors, priceOf, bfsAux, suffFuel,
      bfsNodes, List.dedup, List.insert, List.filter, List.foldl, List.find?, List.filterMap]
    decide
  · decide

/-- C2: saving the +100 posting in commodity 1 (USD) into a transaction whose
balance posting is in commodity 0 (EUR), with 1 USD worth 0.9 EUR on file,
sets the balance posting's amount to -100 — the signal computes
`calculate_balance_amount` on the saved instance, hence in the instance's
commodity — and not to the -90 the specification expects. -/
theorem balance_update_in_instance_commodity :
    savePosting [⟨1, 0, 0, 9 / 10⟩] [⟨2, 0, 0, 0, 0, true⟩] ⟨1, 0, 0, 100, 1, false⟩ =
      some [⟨2, 0, 0, -100, 0, true⟩, ⟨1, 0, 0, 100, 1, false⟩] ∧ (-100 : ℚ) ≠ -90 := by
  constructor
  · norm_num [savePosting, Posting.save, dbWrite, update_balancing_amount,
      calculate_balance_amount, List.filter, List.foldl]
  · norm_num

/-- Unfolding equation for `bfsAux` on a nonempty queue with nonzero fuel. -/
theorem bfsAux_cons (g : List (Nat × Nat)) (pl : List ((Nat × Nat) × ℚ)) (tgt fuel c : Nat)
    (path : List Nat) (fac : ℚ) (rest : List BfsEntry) (visited : List Nat) :
    bfsAux g pl tgt (fuel + 1) ((c, path, fac) :: rest) visited =
      if c = tgt then some fac
      else
        bfsAux g pl tgt fuel
          (rest ++ (graphNeighbors g c).filterMap (fun n =>
            if n ∈ visited.insert c then none
            else some (n, path ++ [n], fac * priceOf pl c n)))
          (visited.insert c) := rfl

/-- Unfolding equation for `bfsAux` on an emptied queue with nonzero fuel. -/
theorem bfsAux_nil (g : List (Nat × Nat)) (pl : List ((Nat × Nat) × ℚ)) (tgt fuel : Nat)
    (visited : List Nat) : bfsAux g pl tgt (fuel + 1) [] visited = some 1 := rfl

/-- A duplicate-free list inside `uni` is no longer than `uni.dedup`. -/
theorem good_path_length_le {uni visited : List Nat} {e : BfsEntry}
    (h : GoodEntry uni visited e) : e.2.1.length ≤ uni.dedup.length := by
  obtain ⟨hnd, -, hsub⟩ := h
  calc e.2.1.length = e.2.1.toFinset.card := (List.toFinset_card_of_nodup hnd).symm
    _ ≤ uni.toFinset.card := by
        apply Finset.card_le_card
        intro x hx
        rw [List.mem_toFinset] at *
        exact hsub x hx
    _ = uni.dedup.length := List.card_toFinset uni

/-- Any fuel strictly above the queue weight lets the BFS loop run to its
natural end: the visited set (through the invariant on recorded paths) keeps
every path duplicate-free, so the measure strictly decreases at each step. -/
theorem bfsAux_isSome_of_lt_fuel (g : List (Nat × Nat)) (pl : List ((Nat × Nat) × ℚ))
    (tgt : Nat) (uni : List Nat) (htgt : ∀ e ∈ g, e.2 ∈ uni) :
    ∀ (fuel : Nat) (queue : List BfsEntry) (visited : List Nat),
      (∀ e ∈ queue, GoodEntry uni visited e) →
      queueWeight g.length uni.dedup.length queue < fuel →
      (bfsAux g pl tgt fuel queue visited).isSome = true := by
  intro fuel
  induction fuel with
  | zero => intro queue visited _ hw; exact absurd hw (Nat.not_lt_zero _)
  | succ f ih =>
    intro queue visited hinv hw
    match queue with
    | [] => rw [bfsAux_nil]; rfl
    | (c, path, fac) :: rest =>
      by_cases hct : c = tgt
      · rw [bfsAux_cons, if_pos hct]; rfl
      · rw [bfsAux_cons, if_neg hct]
        set E := g.length with hE
        set N := uni.dedup.length with hN
        set visited' := visited.insert c with hvis'
        set news := (graphNeighbors g c).filterMap (fun n =>
          if n ∈ visited.insert c then none
          else some (n, path ++ [n], fac * priceOf pl c n)) with hnews
        have hhead : GoodEntry uni visited (c, path, fac) :=
          hinv _ (List.mem_cons_self _ _)
        have hpathvis : ∀ x ∈ path, x ∈ visited' := by
          intro x hx
          rcases hhead.2.1 x hx with h | h
          · exact List.mem_insert_iff.mpr (Or.inl h)
          · exact List.mem_insert_iff.mpr (Or.inr h)
        have hnewsform : ∀ e ∈ news, ∃ n, n ∈ graphNeighbors g c ∧ n ∉ visited' ∧
            e = (n, path ++ [n], fac * priceOf pl c n) := by
          intro e he
          obtain ⟨n, hnmem, hfn⟩ := List.mem_filterMap.mp he
          by_cases hnv : n ∈ visited.insert c
          · rw [if_pos hnv] at hfn; exact absurd hfn (by simp)
          · rw [if_neg hnv] at hfn
            exact ⟨n, hnmem, hnv, (Option.some.injEq _ _).mp hfn.symm⟩
        have hneigh_uni : ∀ n ∈ graphNeighbors g c, n ∈ uni := by
          intro n hn
          obtain ⟨pr, hpr, hpr2⟩ := List.mem_map.mp hn
          exact hpr2 ▸ htgt pr (List.mem_of_mem_filter hpr)
        apply ih
        · intro e he
          rcases List.mem_append.mp he with hr | hn
          · obtain ⟨hnd, hvisε, hsub⟩ := hinv e (List.mem_cons_of_mem _ hr)
            refine ⟨hnd, fun x hx => ?_, hsub⟩
            rcases hvisε x hx with h | h
            · exact Or.inl h
            · exact Or.inr (List.mem_insert_iff.mpr (Or.inr h))
          · obtain ⟨n, hnmem, hnv, rfl⟩ := hnewsform e hn
            have hnpath : n ∉ path := fun hc => hnv (hpathvis n hc)
            refine ⟨?_, ?_, ?_⟩
            · simp [List.nodup_append, hhead.1, hnpath]
            · intro x hx
              rcases List.mem_append.mp hx with hxp | hxn
              · exact Or.inr (hpathvis x hxp)
              · exact Or.inl (by simpa using hxn)
            · intro x hx
              rcases List.mem_append.mp hx with hxp | hxn
              · exact hhead.2.2 x hxp
              · have hx' : x = n := by simpa using hxn
                exact hx' ▸ hneigh_uni n hnmem
        · have hL : path.length ≤ N := good_path_length_le hhead
          have hsplit : queueWeight E N (rest ++ news) =
              queueWeight E N rest + queueWeight E N news := by
            unfold queueWeight
            rw [List.map_append, List.sum_append]
          have hnewsw : queueWeight E N news ≤ news.length * (E + 2) ^ (N - path.length) := by
            unfold queueWeight
            have := List.sum_le_card_nsmul (news.map (entryWeight E N))
              ((E + 2) ^ (N - path.length)) ?_
            · simpa [smul_eq_mul] using this
            · intro x hx
              obtain ⟨e, he, rfl⟩ := List.mem_map.mp hx
              obtain ⟨n, -, -, rfl⟩ := hnewsform e he
              unfold entryWeight
              simp [Nat.succ_sub_succ]
          have hnewslen : news.length ≤ E := by
            calc news.length ≤ (graphNeighbors g c).length := List.length_filterMap_le _ _
              _ ≤ E := by
                  unfold graphNeighbors
                  rw [List.length_map]
                  exact List.length_filter_le _ _
          have hheadw : entryWeight E N (c, path, fac) = (E + 2) ^ (N + 1 - path.length) := rfl
          have hpow : E * (E + 2) ^ (N - path.length) < (E + 2) ^ (N + 1 - path.length) := by
            have h1 : N + 1 - path.length = (N - path.length) + 1 := by omega
            rw [h1, pow_succ]
            have hpos : 0 < (E + 2) ^ (N - path.length) := Nat.pos_pow_of_pos _ (by omega)
            calc E * (E + 2) ^ (N - path.length)
                < (E + 2) * (E + 2) ^ (N - path.length) :=
                  Nat.mul_lt_mul_of_lt_of_le (by omega) (le_refl _) hpos
              _ = (E + 2) ^ (N - path.length) * (E + 2) := Nat.mul_comm _ _
          have hstep : queueWeight E N (rest ++ news) <
              queueWeight E N ((c, path, fac) :: rest) := by
            rw [hsplit]
            have : queueWeight E N ((c, path, fac) :: rest) =
                entryWeight E N (c, path, fac) + queueWeight E N rest := by
              unfold queueWeight
              rw [List.map_cons, List.sum_cons]
            rw [this, hheadw]
            have hnw : queueWeight E N news < (E + 2) ^ (N + 1 - path.length) :=
              lt_of_le_of_lt (le_trans hnewsw (Nat.mul_le_mul_right _ hnewslen)) hpow
            omega
          have hqw : queueWeight E N ((c, path, fac) :: rest) ≤ f := Nat.lt_succ_iff.mp hw
          exact lt_of_lt_of_le hstep hqw

/-- The fuel `suffFuel` always suffices for the BFS started at `s`. -/
theorem bfsAux_suffFuel_isSome (g : List (Nat × Nat)) (pl : List ((Nat × Nat) × ℚ))
    (s tgt : Nat) :
    (bfsAux g pl tgt (suffFuel g s) [(s, [s], 1)] []).isSome = true := by
  apply bfsAux_isSome_of_lt_fuel g pl tgt (bfsNodes g s)
  · intro e he
    unfold bfsNodes
    exact List.mem_cons_of_mem _ (List.mem_flatMap.mpr ⟨e, he, by simp⟩)
  · intro e he
    have he' : e = (s, [s], (1 : ℚ)) := by simpa using he
    subst he'
    refine ⟨by simp, by simp, ?_⟩
    intro x hx
    have hx' : x = s := by simpa using hx
    subst hx'
    exact List.mem_cons_self _ _
  · unfold suffFuel queueWeight entryWeight
    simp

/-- C6: on every price table the BFS of `convert_to` runs to completion
within the `suffFuel` bound — even when the built graph is cyclic (for
example when both directions of a pair are directly priced), the visited-set
discipline ends the loop. -/
theorem convert_to_bfs_terminates (prices : List PriceRow) (s tgt : Nat) :
    (bfsAux (buildGraph (latest_prices prices)).1 (buildGraph (latest_prices prices)).2 tgt
      (suffFuel (buildGraph (latest_prices prices)).1 s) [(s, [s], 1)] []).isSome = true :=
  bfsAux_suffFuel_isSome _ _ _ _

/-- Reachable nodes stay inside any edge-closed set containing the start. -/
theorem reachable_mem_of_closed (g : List (Nat × Nat)) (S : List Nat)
    (hclosed : ∀ e ∈ g, e.1 ∈ S → e.2 ∈ S) {a b : Nat}
    (hab : ReachableIn g a b) (ha : a ∈ S) : b ∈ S := by
  induction hab with
  | refl => exact ha
  | tail _ hedge ih => exact hclosed _ hedge ih

/-- A BFS whose whole queue is reachable from `s` while the target is not
either runs out of fuel or drains its queue and yields the factor 1. -/
theorem bfsAux_of_unreachable (g : List (Nat × Nat)) (pl : List ((Nat × Nat) × ℚ))
    (s tgt : Nat) (htgt : ¬ ReachableIn g s tgt) :
    ∀ (fuel : Nat) (queue : List BfsEntry) (visited : List Nat),
      (∀ e ∈ queue, ReachableIn g s e.1) →
      bfsAux g pl tgt fuel queue visited = none ∨
        bfsAux g pl tgt fuel queue visited = some 1 := by
  intro fuel
  induction fuel with
  | zero => intro queue visited _; left; rfl
  | succ f ih =>
    intro queue visited hreach
    match queue with
    | [] => right; exact bfsAux_nil ..
    | (c, path, fac) :: rest =>
      have hcreach : ReachableIn g s c := hreach _ (List.mem_cons_self _ _)
      have hct : c ≠ tgt := fun h => htgt (h ▸ hcreach)
      rw [bfsAux_cons, if_neg hct]
      apply ih
      intro e he
      rcases List.mem_append.mp he with hr | hn
      · exact hreach e (List.mem_cons_of_mem _ hr)
      · obtain ⟨n, hnmem, hfn⟩ := List.mem_filterMap.mp hn
        by_cases hnv : n ∈ visited.insert c
        · rw [if_pos hnv] at hfn; exact absurd hfn (by simp)
        · rw [if_neg hnv] at hfn
          obtain rfl : (n, path ++ [n], fac * priceOf pl c n) = e :=
            Option.some.inj hfn
          obtain ⟨pr, hpr, hpr2⟩ := List.mem_map.mp hnmem
          have hedge : EdgeStep g c n := by
            have hpr1 : pr.1 == c := by
              have := List.of_mem_filter hpr
              simpa using this
            have : pr = (c, n) := by
              obtain ⟨x, y⟩ := pr
              simp only at hpr2
              simp only [beq_iff_eq] at hpr1
              simp [hpr1, hpr2]
            show (c, n) ∈ g
            exact this ▸ List.mem_of_mem_filter hpr
          exact hcreach.tail hedge

/-- C4: `convert_to` never fails: a code string matching no commodity row
resolves to the identity factor 1, and a target unreachable in the built
price graph also yields the identity factor 1. -/
theorem convert_to_fallback_identity (table : CommodityTable) (prices : List PriceRow)
    (s : Nat) :
    (∀ str : String, (∀ row ∈ table, row.2 ≠ str) →
        convert_to table prices s (.code str) = 1) ∧
      (∀ tgt : Nat, ¬ ReachableIn (buildGraph (latest_prices prices)).1 s tgt →
        convert_to table prices s (.obj tgt) = 1) := by
  constructor
  · intro str hnone
    have hres : resolveCode table str = none := by
      unfold resolveCode
      rw [List.find?_eq_none.mpr]
      · rfl
      · intro row hrow
        simpa using hnone row hrow
    simp [convert_to, hres]
  · intro tgt hunreach
    show (bfsAux _ _ _ _ _ _).getD 1 = 1
    rcases bfsAux_of_unreachable _ _ s tgt hunreach (suffFuel _ s) [(s, [s], 1)] []
        (by intro e he; have : e = (s, [s], (1:ℚ)) := by simpa using he
            subst this; exact Relation.ReflTransGen.refl) with h | h
    · rw [h]; rfl
    · rw [h]; rfl

/-- Witness for `convert_to_fallback_identity`: with the single commodity row
(0, "EUR") and the single price row (0 priced in 1, value 2), the code
"NOPE" resolves to no commodity and the node 5 is unreachable; both calls
return 1. -/
theorem convert_to_fallback_identity_witness :
    convert_to [(0, "EUR")] [⟨0, 1, 0, 2⟩] 0 (.code "NOPE") = 1 ∧
      convert_to [(0, "EUR")] [⟨0, 1, 0, 2⟩] 0 (.obj 5) = 1 := by
  constructor
  · exact (convert_to_fallback_identity [(0, "EUR")] [⟨0, 1, 0, 2⟩] 0).1 "NOPE"
      (by decide)
  · apply (convert_to_fallback_identity [(0, "EUR")] [⟨0, 1, 0, 2⟩] 0).2 5
    intro h
    have hg : (buildGraph (latest_prices [⟨0, 1, 0, 2⟩])).1 = [(0, 1), (1, 0)] := by decide
    rw [hg] at h
    have h5 : (5 : Nat) ∈ [0, 1] :=
      reachable_mem_of_closed [(0, 1), (1, 0)] [0, 1] (by decide) h (by decide)
    simp at h5

/-- A one-row price table survives the latest-price filter unchanged. -/
theorem latest_prices_single (p : PriceRow) : latest_prices [p] = [p] := by
  simp [latest_prices, latest_dates, pricePairs, latestDateOf, sortDateDesc, insertDateDesc,
    Nat.zero_max]

/-- BFS over the two-edge graph of a single quote, from the quoted commodity
to its unit: one hop along the forward edge. -/
theorem bfsAux_direct_edge (A B : Nat) (wBA wAB : ℚ) (hAB : A ≠ B) (m : Nat) :
    bfsAux [(A, B), (B, A)] [((B, A), wBA), ((A, B), wAB)] B (m + 2) [(A, [A], 1)] [] =
      some wAB := by
  simp [bfsAux, graphNeighbors, priceOf, hAB, Ne.symm hAB, List.insert]

/-- BFS over the two-edge graph of a single quote, from the unit back to the
quoted commodity: one hop along the implicit reverse edge. -/
theorem bfsAux_reverse_edge (A B : Nat) (wBA wAB : ℚ) (hAB : A ≠ B) (m : Nat) :
    bfsAux [(A, B), (B, A)] [((B, A), wBA), ((A, B), wAB)] A (m + 2) [(B, [B], 1)] [] =
      some wBA := by
  simp [bfsAux, graphNeighbors, priceOf, hAB, Ne.symm hAB, List.insert]

/-- C5: when the only price datum is a single quote of `A` in unit `B` with
nonzero value `V`, the forward conversion is `V`, the reverse conversion is
`1 / V`, and a quote of exactly zero contributes the forward edge only. -/
theorem direct_price_and_inverse (A B d : Nat) (V : ℚ) (hAB : A ≠ B) (hV : V ≠ 0) :
    convert_to [] [⟨A, B, d, V⟩] A (.obj B) = V ∧
      convert_to [] [⟨A, B, d, V⟩] B (.obj A) = 1 / V ∧
      buildGraph (latest_prices [⟨A, B, d, 0⟩]) = ([(A, B)], [((A, B), 0)]) := by
  have hbgV : buildGraph [(⟨A, B, d, V⟩ : PriceRow)] =
      ([(A, B), (B, A)], [((B, A), 1 / V), ((A, B), V)]) := by
    simp [buildGraph, hV]
  refine ⟨?_, ?_, ?_⟩
  · have h1 : convert_to [] [⟨A, B, d, V⟩] A (.obj B) =
        (bfsAux (buildGraph (latest_prices [⟨A, B, d, V⟩])).1
          (buildGraph (latest_prices [⟨A, B, d, V⟩])).2 B
          (suffFuel (buildGraph (latest_prices [⟨A, B, d, V⟩])).1 A) [(A, [A], 1)] []).getD 1 :=
      rfl
    rw [h1, latest_prices_single, hbgV]
    obtain ⟨m, hm⟩ : ∃ m, suffFuel [(A, B), (B, A)] A = m + 2 := by
      have hpos : 0 < (([(A, B), (B, A)] : List (Nat × Nat)).length + 2) ^
          (bfsNodes [(A, B), (B, A)] A).dedup.length :=
        Nat.pos_pow_of_pos _ (by omega)
      refine ⟨(([(A, B), (B, A)] : List (Nat × Nat)).length + 2) ^
          (bfsNodes [(A, B), (B, A)] A).dedup.length - 1, ?_⟩
      unfold suffFuel
      omega
    rw [hm, bfsAux_direct_edge A B _ _ hAB m]
    rfl
  · have h1 : convert_to [] [⟨A, B, d, V⟩] B (.obj A) =
        (bfsAux (buildGraph (latest_prices [⟨A, B, d, V⟩])).1
          (buildGraph (latest_prices [⟨A, B, d, V⟩])).2 A
          (suffFuel (buildGraph (latest_prices [⟨A, B, d, V⟩])).1 B) [(B, [B], 1)] []).getD 1 :=
      rfl
    rw [h1, latest_prices_single, hbgV]
    obtain ⟨m, hm⟩ : ∃ m, suffFuel [(A, B), (B, A)] B = m + 2 := by
      have hpos : 0 < (([(A, B), (B, A)] : List (Nat × Nat)).length + 2) ^
          (bfsNodes [(A, B), (B, A)] B).dedup.length :=
        Nat.pos_pow_of_pos _ (by omega)
      refine ⟨(([(A, B), (B, A)] : List (Nat × Nat)).length + 2) ^
          (bfsNodes [(A, B), (B, A)] B).dedup.length - 1, ?_⟩
      unfold suffFuel
      omega
    rw [hm, bfsAux_reverse_edge A B _ _ hAB m]
    rfl
  · rw [latest_prices_single]
    simp [buildGraph]

/-- Witness for `direct_price_and_inverse` at the quote 1 EUR = 1.23 USD. -/
theorem direct_price_and_inverse_witness :
    convert_to [] [⟨0, 1, 5, 123 / 100⟩] 0 (.obj 1) = 123 / 100 ∧
      convert_to [] [⟨0, 1, 5, 123 / 100⟩] 1 (.obj 0) = 1 / (123 / 100) ∧
      buildGraph (latest_prices [⟨0, 1, 5, 0⟩]) = ([(0, 1)], [((0, 1), 0)]) :=
  direct_price_and_inverse 0 1 5 (123 / 100) (by decide) (by norm_num)
